import Mathlib

/-!
Verification development for `src/backend/decorators/resource-decorator.ts`
(admin-bro).

The resource decorator reconciles adapter-provided schema metadata with
user-supplied `ResourceOptions` into a render-ready model: a map of decorated
properties, a map of decorated actions, and query operations over them
(`getProperties`, `resourceActions`, `titleProperty`, `toJSON`, ...).

JavaScript objects used as string-keyed maps are embedded as association lists
`List (String × α)` (a JS object's keys are unique and iterate in insertion
order; `Object.keys` / `Object.values` follow that order).  Thrown exceptions
are embedded as `Except`.  The collaborating classes that live outside this
source file (`PropertyDecorator`, `ActionDecorator`, `BaseProperty`) are
embedded as records of the attributes the decorator reads from them, or are
quantified over where the decorator only constructs them.
-/

/-! ## Definitions -/


/-- The four UI contexts (`PropertyPlace` in `property-json.interface`):
`list`, `show`, `edit`, `filter`. -/
inductive PropertyPlace
  | list
  | show
  | edit
  | filter
deriving DecidableEq, Repr

/-- Adapter-level property descriptor.  The constructor call embedded from the
source is `new BaseProperty({ path, isSortable })` (resource-decorator.ts:130).
`base-property.ts` itself is outside the examined slice, so only the stored
constructor arguments are modelled. -/
structure BaseProperty where
  path : String
  isSortable : Bool

/-- Modelled from the spec: `base-property.ts` is not part of the examined
source; per the spec's data model a descriptor's `name()` is its stable key,
equal to the descriptor path. -/
def BaseProperty.name (p : BaseProperty) : String := p.path

/-- The acting admin user (`current-admin.interface`), opaque to this core. -/
structure CurrentAdmin where
  email : String

/-- Modelled from the spec: `property-decorator.ts` is not part of the examined
source.  A decorated property wraps one descriptor and resolves a display
`position`, per-context visibility (`isVisible(where)`) and the `isTitle`
flag; the resource decorator only reads those resolved attributes, so they are
recorded here abstractly (the resource-decorator theorems quantify over
them). -/
structure PropertyDecorator where
  property : BaseProperty
  position : Int
  visibleIn : PropertyPlace → Bool
  isTitle : Bool

/-- Modelled from the spec: `action-decorator.ts` is not part of the examined
source.  The resource decorator reads an action's scope
(`isResourceType()`) and its visibility / access predicates applied to the
current admin, recorded here as resolved attributes. -/
structure ActionDecorator where
  name : String
  isResourceType : Bool
  isVisible : Option CurrentAdmin → Bool
  isAccessible : Option CurrentAdmin → Bool

/-- The parent option: a plain string or an `{ name, icon }` object. -/
inductive ParentSpec
  | str (s : String)
  | obj (name : Option String) (icon : Option String)

/-- User-supplied resource options (`resource-options.interface`), restricted
to the fields the decorator queries read.  (`options.properties` and
`options.actions` are consumed at construction time and are passed directly
to `decorateProperties` / `decorateActions` below.) -/
structure ResourceOptions where
  name : Option String := none
  parent : Option ParentSpec := none
  listProperties : Option (List String) := none
  showProperties : Option (List String) := none
  editProperties : Option (List String) := none
  filterProperties : Option (List String) := none

/-- The adapter resource, read-only to this core: `id()`, `name()`,
`databaseName()`, `databaseType()`. -/
structure BaseResource where
  id : String
  name : String
  databaseName : String
  databaseType : String

/-- The admin context; `ViewHelpers.resourceActionUrl({resourceId, actionName})`
is external URL generation, abstracted as an oracle. -/
structure AdminBro where
  resourceActionUrl : String → String → String

/-- `ConfigurationError` (`utils/configuration-error`): carries a message and a
documentation page reference. -/
structure ConfigurationError where
  message : String
  docPage : String
deriving DecidableEq, Repr

/-- JS `obj[k]` on a string-keyed object embedded as an association list. -/
def objGet {α : Type} (m : List (String × α)) (k : String) : Option α :=
  (m.find? (fun kv => kv.1 = k)).map (fun kv => kv.2)

/-- JS `{...m, [k]: v}` / `m[k] = v`: replace in place when the key exists,
append otherwise. -/
def objInsert {α : Type} (m : List (String × α)) (k : String) (v : α) :
    List (String × α) :=
  if m.any (fun kv => kv.1 = k) then
    m.map (fun kv => if kv.1 = k then (kv.1, v) else kv)
  else m ++ [(k, v)]

/-- JS `a || b` for an optional string (`undefined` and `''` are falsy). -/
def jsOrStr (o : Option String) (dflt : String) : String :=
  match o with
  | some s => if s = "" then dflt else s
  | none => dflt

/-- `DEFAULT_MAX_COLUMNS_IN_LIST` (resource-decorator.ts:22). -/
def DEFAULT_MAX_COLUMNS_IN_LIST : Nat := 8

/-- `decorateProperties` (resource-decorator.ts:113-141).  `σ` is the opaque
per-property options payload; `decorate` stands for the external
`new PropertyDecorator({property, options, ...})` constructor.
First every adapter descriptor is decorated, keyed by its name, in descriptor
order (`reduce` with object spread); then every `options.properties` key that
is not yet a key of the map and contains no `.` is synthesized as a
non-sortable `BaseProperty` and decorated the same way, appended in option
order. -/
def decorateProperties {σ : Type} (resProps : List BaseProperty)
    (optProps : List (String × σ))
    (decorate : BaseProperty → Option σ → PropertyDecorator) :
    List (String × PropertyDecorator) :=
  let base := resProps.foldl
    (fun memo p => objInsert memo p.name (decorate p (objGet optProps p.name)))
    []
  optProps.foldl
    (fun props kv =>
      if (objGet props kv.1).isSome || kv.1.data.contains '.' then props
      else objInsert props kv.1
        (decorate { path := kv.1, isSortable := false } (objGet optProps kv.1)))
    base

/-- An action configuration object (the values of the default `ACTIONS` set and
of `options.actions`).  Modelled from the spec: `actions/index` is not part of
the examined source; an action carries an optional `name`, `label`, a scope
and visibility / access predicates.  Fields are `Option`s: `none` is a JS
`undefined` field. -/
structure ActionSpec where
  name : Option String := none
  label : Option String := none
  actionType : Option String := none
  isVisible : Option (Option CurrentAdmin → Bool) := none
  isAccessible : Option (Option CurrentAdmin → Bool) := none

/-- lodash `_.merge` restricted to two action objects: a per-field deep merge
in which a field of the second argument wins when it is present
(`undefined` source fields never overwrite). -/
def mergeActionSpec (d u : ActionSpec) : ActionSpec where
  name := match u.name with | some s => some s | none => d.name
  label := match u.label with | some s => some s | none => d.label
  actionType := match u.actionType with | some s => some s | none => d.actionType
  isVisible := match u.isVisible with | some f => some f | none => d.isVisible
  isAccessible := match u.isAccessible with | some f => some f | none => d.isAccessible

/-- lodash `_.merge({}, ACTIONS, options.actions)` at the map level:
keys of the defaults first (values per-field merged with the user's entry when
one exists), then user-only keys appended in their insertion order. -/
def mergeActionMaps (defaults userActions : List (String × ActionSpec)) :
    List (String × ActionSpec) :=
  userActions.foldl
    (fun memo kv =>
      match objGet memo kv.1 with
      | some d => objInsert memo kv.1 (mergeActionSpec d kv.2)
      | none => memo ++ [(kv.1, kv.2)])
    defaults

/-- `actions[key].name = actions[key].name || key` and the same for `label`
(resource-decorator.ts:94-95). -/
def fillNameLabel (k : String) (a : ActionSpec) : ActionSpec :=
  { a with name := some (jsOrStr a.name k), label := some (jsOrStr a.label k) }

/-- `decorateActions` (resource-decorator.ts:86-104), up to the external
`ActionDecorator` wrapping: deep-merge the user's actions over the defaults,
then fill each action's `name` and `label` with its map key when falsy
(`actions[key].name || key`).  The result is the map of action configuration
objects handed to `new ActionDecorator`. -/
def decorateActions (defaults userActions : List (String × ActionSpec)) :
    List (String × ActionSpec) :=
  (mergeActionMaps defaults userActions).map
    (fun kv => (kv.1, fillNameLabel kv.1 kv.2))

/-- The decorator's owned state: the adapter resource, the admin context, the
options, and the two maps built at construction time (insertion order:
descriptor order then synthesized, resp. default actions then custom). -/
structure ResourceDecorator where
  resource : BaseResource
  admin : AdminBro
  options : ResourceOptions
  properties : List (String × PropertyDecorator)
  actions : List (String × ActionDecorator)

/-- `getResourceName` (resource-decorator.ts:147-149):
`this.options.name || this._resource.name()`. -/
def ResourceDecorator.getResourceName (d : ResourceDecorator) : String :=
  jsOrStr d.options.name d.resource.name

/-- The `{ name, icon }` value of `getParent` / `toJSON().parent`. -/
structure ParentJSON where
  name : String
  icon : String
deriving DecidableEq, Repr

/-- JS truthiness of the `options.parent` value (`''` is falsy, any object is
truthy). -/
def parentTruthy : ParentSpec → Bool
  | ParentSpec.str s => !(s = "")
  | ParentSpec.obj _ _ => true

/-- `getParent` (resource-decorator.ts:156-163):
`parent = options.parent || resource.databaseName()`;
`name = parent.name || parent` (a string parent has no `name` field);
`icon = parent.icon ? parent.icon : 'icon-' + (databaseType() || 'database')`.
In the corner where an object parent has a falsy `name`, JS keeps the object
value itself; its string coercion `"[object Object]"` is recorded. -/
def ResourceDecorator.getParent (d : ResourceDecorator) : ParentJSON :=
  let parent : ParentSpec :=
    match d.options.parent with
    | some p => if parentTruthy p then p else ParentSpec.str d.resource.databaseName
    | none => ParentSpec.str d.resource.databaseName
  let defaultIcon :=
    "icon-" ++ (if d.resource.databaseType = "" then "database" else d.resource.databaseType)
  match parent with
  | ParentSpec.str s => { name := s, icon := defaultIcon }
  | ParentSpec.obj n i =>
      { name :=
          match n with
          | some nm => if nm = "" then "[object Object]" else nm
          | none => "[object Object]"
        icon :=
          match i with
          | some ic => if ic = "" then defaultIcon else ic
          | none => defaultIcon }

/-- `getPropertyByKey` (resource-decorator.ts:173-182): look the path up in the
owned map; throw a `ConfigurationError` naming the path and the resolved
resource name when it is absent. -/
def ResourceDecorator.getPropertyByKey (d : ResourceDecorator)
    (propertyPath : String) : Except ConfigurationError PropertyDecorator :=
  match objGet d.properties propertyPath with
  | some property => Except.ok property
  | none => Except.error
      { message := "there is no property by the name of '" ++ propertyPath
          ++ "' in resource " ++ d.getResourceName
        docPage := "tutorial-04-customizing-resources.html" }

/-- `this.options[where + 'Properties']` (resource-decorator.ts:198-199). -/
def overrideFor (o : ResourceOptions) : PropertyPlace → Option (List String)
  | PropertyPlace.list => o.listProperties
  | PropertyPlace.show => o.showProperties
  | PropertyPlace.edit => o.editProperties
  | PropertyPlace.filter => o.filterProperties

/-- `this.options[whereProperties].map(this.getPropertyByKey)` under exception
semantics: resolve left to right, the first missing path aborts with its
`ConfigurationError`. -/
def ResourceDecorator.mapGetPropertyByKey (d : ResourceDecorator) :
    List String → Except ConfigurationError (List PropertyDecorator)
  | [] => Except.ok []
  | k :: ks => do
    let p ← d.getPropertyByKey k
    let ps ← d.mapGetPropertyByKey ks
    Except.ok (p :: ps)

/-- `getProperties` (resource-decorator.ts:194-215).
If the per-context override exists and has nonzero length, resolve exactly its
names by lookup.  Otherwise filter the owned map to the properties visible in
`where`, sort with the comparator
`(key1, key2) => position(key1) > position(key2) ? 1 : -1` — under
ECMAScript's stable `Array#sort` this exchanges elements exactly when the
first position is strictly greater, i.e. it is the stable sort by
`position ≤ position`, embedded as `List.insertionSort` — and, when `max` is
nonzero (JS truthy), return the first `max` entries (`slice(0, max)`). -/
def ResourceDecorator.getProperties (d : ResourceDecorator)
    (place : PropertyPlace) (max : Nat) :
    Except ConfigurationError (List PropertyDecorator) :=
  match overrideFor d.options place with
  | some (k :: ks) => d.mapGetPropertyByKey (k :: ks)
  | _ =>
    let properties :=
      (List.insertionSort (fun a b => a.2.position ≤ b.2.position)
        (d.properties.filter (fun kv => kv.2.visibleIn place))).map
        (fun kv => kv.2)
    if max ≠ 0 then Except.ok (properties.take max) else Except.ok properties

/-- `getListProperties` (resource-decorator.ts:217-219). -/
def ResourceDecorator.getListProperties (d : ResourceDecorator) :
    Except ConfigurationError (List PropertyDecorator) :=
  d.getProperties PropertyPlace.list DEFAULT_MAX_COLUMNS_IN_LIST

/-- `resourceActions` (resource-decorator.ts:228-235): the owned actions, in
map order, that are resource-scoped, visible and accessible for the current
admin. -/
def ResourceDecorator.resourceActions (d : ResourceDecorator)
    (currentAdmin : Option CurrentAdmin) : List ActionDecorator :=
  (d.actions.map (fun kv => kv.2)).filter
    (fun action =>
      action.isResourceType && action.isVisible currentAdmin
        && action.isAccessible currentAdmin)

/-- `titleProperty` (resource-decorator.ts:258-262): the first owned property
(in map order) whose `isTitle` resolves true, else the first property;
`none` embeds the `undefined` a property-less resource yields. -/
def ResourceDecorator.titleProperty (d : ResourceDecorator) :
    Option PropertyDecorator :=
  let properties := d.properties.map (fun kv => kv.2)
  match properties.find? (fun p => p.isTitle) with
  | some p => some p
  | none => properties.head?

/-- The JSON snapshot (`resource-json.interface`), with the per-item
`toJSON()` calls of the external property/action decorators abstracted to the
decorators themselves. -/
structure ResourceJSON where
  id : String
  name : String
  parent : ParentJSON
  href : String
  titleProperty : PropertyDecorator
  resourceActions : List ActionDecorator
  listProperties : List PropertyDecorator
  editProperties : List PropertyDecorator
  showProperties : List PropertyDecorator
  filterProperties : List PropertyDecorator

/-- A failure `toJSON` can propagate: a `ConfigurationError` thrown by a
property-ordering lookup, or the `TypeError` of calling
`titleProperty().toJSON()` on a property-less resource. -/
inductive JsError
  | configuration (e : ConfigurationError)
  | typeError

/-- `toJSON` (resource-decorator.ts:284-305).  JS evaluates the object-literal
fields in source order; the fallible ones (`titleProperty().toJSON()` and the
four `getProperties` calls) are sequenced in that order (`resourceActions`
cannot fail, so its evaluation point is immaterial). -/
def ResourceDecorator.toJSON (d : ResourceDecorator)
    (currentAdmin : Option CurrentAdmin) : Except JsError ResourceJSON :=
  (match d.titleProperty with
    | some p => Except.ok p
    | none => Except.error JsError.typeError) >>= fun tp =>
  (d.getProperties PropertyPlace.list DEFAULT_MAX_COLUMNS_IN_LIST).mapError
    JsError.configuration >>= fun listP =>
  (d.getProperties PropertyPlace.edit 0).mapError JsError.configuration >>= fun editP =>
  (d.getProperties PropertyPlace.show 0).mapError JsError.configuration >>= fun showP =>
  (d.getProperties PropertyPlace.filter 0).mapError JsError.configuration >>= fun filterP =>
  Except.ok
    { id := d.resource.id
      name := d.getResourceName
      parent := d.getParent
      href := d.admin.resourceActionUrl d.resource.id "list"
      titleProperty := tp
      resourceActions := d.resourceActions currentAdmin
      listProperties := listP
      editProperties := editP
      showProperties := showP
      filterProperties := filterP }

/-- Replace one per-context ordering override (used to compare a configuration
with the same configuration minus one override). -/
def setContextOverride (o : ResourceOptions) (place : PropertyPlace)
    (v : Option (List String)) : ResourceOptions :=
  match place with
  | PropertyPlace.list => { o with listProperties := v }
  | PropertyPlace.show => { o with showProperties := v }
  | PropertyPlace.edit => { o with editProperties := v }
  | PropertyPlace.filter => { o with filterProperties := v }

def exPropA : PropertyDecorator :=
  { property := { path := "a", isSortable := true }, position := 1,
    visibleIn := fun _ => true, isTitle := false }

def exPropB : PropertyDecorator :=
  { property := { path := "b", isSortable := true }, position := 2,
    visibleIn := fun _ => false, isTitle := true }

def exAdmin : AdminBro := { resourceActionUrl := fun _ _ => "/admin" }

def exRes : BaseResource :=
  { id := "res-id", name := "User", databaseName := "mydb", databaseType := "mongodb" }

def exD1 : ResourceDecorator :=
  { resource := exRes, admin := exAdmin
    options := { listProperties := some ["b", "a"] }
    properties := [("a", exPropA), ("b", exPropB)]
    actions := [] }

/-- The default branch's value: the owned properties visible in the given
context, stably sorted by position. -/
def visibleSorted (d : ResourceDecorator) (place : PropertyPlace) :
    List PropertyDecorator :=
  (List.insertionSort (fun a b => a.2.position ≤ b.2.position)
    (d.properties.filter (fun kv => kv.2.visibleIn place))).map (fun kv => kv.2)

def exD10 : ResourceDecorator :=
  { resource := exRes, admin := exAdmin
    options := { showProperties := some [] }
    properties := [("a", exPropA), ("b", exPropB)]
    actions := [] }

/-- The positions of the properties of a successful `getProperties` result. -/
def okPositions (r : Except ConfigurationError (List PropertyDecorator)) :
    List Int :=
  match r with
  | Except.ok ps => ps.map (fun p => p.position)
  | Except.error _ => []

def exPropT1 : PropertyDecorator :=
  { property := { path := "t1", isSortable := true }, position := 5,
    visibleIn := fun _ => true, isTitle := false }

def exPropT2 : PropertyDecorator :=
  { property := { path := "t2", isSortable := true }, position := 5,
    visibleIn := fun _ => true, isTitle := false }

def exD2 : ResourceDecorator :=
  { resource := exRes, admin := exAdmin
    options := {}
    properties := [("t1", exPropT1), ("t2", exPropT2)]
    actions := [] }

def exD2w : ResourceDecorator :=
  { resource := exRes, admin := exAdmin
    options := {}
    properties := [("a", exPropA), ("b", exPropB)]
    actions := [] }

/-- The number of properties in a successful `getProperties` result. -/
def okLength (r : Except ConfigurationError (List PropertyDecorator)) : Nat :=
  match r with
  | Except.ok ps => ps.length
  | Except.error _ => 0

def mkVisProp (nm : String) (pos : Int) : PropertyDecorator :=
  { property := { path := nm, isSortable := true }, position := pos,
    visibleIn := fun _ => true, isTitle := false }

def exD8 : ResourceDecorator :=
  { resource := exRes, admin := exAdmin
    options := { listProperties := some ["p1", "p2", "p3", "p4", "p5", "p6", "p7", "p8", "p9"] }
    properties :=
      [("p1", mkVisProp "p1" 1), ("p2", mkVisProp "p2" 2), ("p3", mkVisProp "p3" 3),
       ("p4", mkVisProp "p4" 4), ("p5", mkVisProp "p5" 5), ("p6", mkVisProp "p6" 6),
       ("p7", mkVisProp "p7" 7), ("p8", mkVisProp "p8" 8), ("p9", mkVisProp "p9" 9)]
    actions := [] }

/-- The `parent` field of a successful `toJSON` snapshot. -/
def okParent (r : Except JsError ResourceJSON) : Option ParentJSON :=
  match r with
  | Except.ok j => some j.parent
  | Except.error _ => none

def exResProps : List BaseProperty := [⟨"name", true⟩, ⟨"age", true⟩]

def exOptProps : List (String × Unit) := [("extra", ()), ("nested.x", ())]

def exDecorate : BaseProperty → Option Unit → PropertyDecorator :=
  fun p _ => ⟨p, 0, fun _ => true, false⟩

def exDelVis : Option CurrentAdmin → Bool := fun _ => true

def exDelAcc : Option CurrentAdmin → Bool := fun u => u.isSome

def exDelDef : ActionSpec :=
  { name := some "delete", label := some "Delete", actionType := some "record",
    isVisible := some exDelVis, isAccessible := some exDelAcc }

def exListDef : ActionSpec :=
  { name := some "list", label := some "List", actionType := some "resource",
    isVisible := some exDelVis, isAccessible := some exDelVis }

def exDefaults : List (String × ActionSpec) :=
  [("delete", exDelDef), ("list", exListDef)]

def exUDel : ActionSpec := { label := some "Remove" }

def exUCustom : ActionSpec := { actionType := some "resource" }

def exUser : List (String × ActionSpec) :=
  [("delete", exUDel), ("custom", exUCustom)]

/-! ## Theorems -/

theorem mapGetPropertyByKey_ok (d : ResourceDecorator) (ks : List String)
    (h : ∀ k ∈ ks, (objGet d.properties k).isSome) :
    ∃ ps, d.mapGetPropertyByKey ks = Except.ok ps ∧
      List.Forall₂ (fun k p => objGet d.properties k = some p) ks ps := by
  induction ks with
  | nil => exact ⟨[], rfl, List.Forall₂.nil⟩
  | cons k ks ih =>
    obtain ⟨p, hp⟩ := Option.isSome_iff_exists.mp (h k (List.mem_cons_self k ks))
    obtain ⟨ps, hps, hf⟩ := ih (fun k hk => h k (List.mem_cons_of_mem _ hk))
    refine ⟨p :: ps, ?_, List.Forall₂.cons hp hf⟩
    have hk : d.getPropertyByKey k = Except.ok p := by
      simp [ResourceDecorator.getPropertyByKey, hp]
    have step : d.mapGetPropertyByKey (k :: ks) =
        Except.bind (d.getPropertyByKey k)
          (fun q => Except.bind (d.mapGetPropertyByKey ks)
            (fun qs => Except.ok (q :: qs))) := rfl
    rw [step, hk]
    show Except.bind (d.mapGetPropertyByKey ks)
      (fun qs => Except.ok (p :: qs)) = Except.ok (p :: ps)
    rw [hps]
    rfl

/-- C1: for every context `where`, when the options define a non-trivial
explicit ordering override for that context whose names all resolve,
`getProperties({where})` returns exactly the named properties, resolved by
name lookup, in exactly the given order — independent of each property's
position, visibility in that context, and of any `max` argument (which is
quantified arbitrarily here and absent from the conclusion). -/
theorem getProperties_override_spec (d : ResourceDecorator)
    (place : PropertyPlace) (max : Nat) (ks : List String)
    (hov : overrideFor d.options place = some ks) (hne : ks ≠ [])
    (hall : ∀ k ∈ ks, (objGet d.properties k).isSome) :
    ∃ ps, d.getProperties place max = Except.ok ps ∧
      List.Forall₂ (fun k p => objGet d.properties k = some p) ks ps := by
  obtain ⟨k, ks', rfl⟩ := List.exists_cons_of_ne_nil hne
  obtain ⟨ps, hps, hf⟩ := mapGetPropertyByKey_ok d (k :: ks') hall
  exact ⟨ps, by simp [ResourceDecorator.getProperties, hov, hps], hf⟩

/-- C1 witness: a concrete resource with `listProperties = ["b", "a"]` and a
`max` of 1: the override is returned whole, in its order, despite positions
1 and 2, despite `b` being visible nowhere, and despite `max = 1`. -/
theorem getProperties_override_witness :
    exD1.getProperties PropertyPlace.list 1 = Except.ok [exPropB, exPropA] ∧
    objGet exD1.properties "b" = some exPropB ∧
    objGet exD1.properties "a" = some exPropA := by
  obtain ⟨ps, h1, h2⟩ := getProperties_override_spec exD1 PropertyPlace.list 1
    ["b", "a"] rfl (by decide) (by decide)
  have e : exD1.getProperties PropertyPlace.list 1 = Except.ok [exPropB, exPropA] := rfl
  exact ⟨e, rfl, rfl⟩

theorem getProperties_default_eq (d : ResourceDecorator) (place : PropertyPlace)
    (max : Nat)
    (hov : overrideFor d.options place = none ∨ overrideFor d.options place = some []) :
    d.getProperties place max =
      Except.ok (if max = 0 then visibleSorted d place
        else (visibleSorted d place).take max) := by
  rcases hov with h | h <;>
    · simp only [ResourceDecorator.getProperties, h, visibleSorted]
      by_cases hm : max = 0 <;> simp [hm]

/-- C10: an empty per-context ordering override (e.g. `listProperties = []`)
does not force the empty sequence: `getProperties` behaves exactly as if the
override were not given at all (the default filter/sort/truncate branch runs
and succeeds). -/
theorem getProperties_emptyOverride_spec (d : ResourceDecorator)
    (place : PropertyPlace) (max : Nat)
    (h : overrideFor d.options place = some []) :
    d.getProperties place max =
      ({ d with options := setContextOverride d.options place none }
        : ResourceDecorator).getProperties place max
    ∧ ∃ ps, d.getProperties place max = Except.ok ps := by
  have h2 : overrideFor
      ({ d with options := setContextOverride d.options place none }
        : ResourceDecorator).options place = none := by
    cases place <;> simp [setContextOverride, overrideFor]
  have e1 := getProperties_default_eq d place max (Or.inr h)
  have e2 := getProperties_default_eq
    ({ d with options := setContextOverride d.options place none }) place max (Or.inl h2)
  refine ⟨?_, ?_⟩
  · rw [e1, e2]
    rfl
  · rw [e1]
    exact ⟨_, rfl⟩

/-- C10 witness: a concrete resource whose `showProperties` override is the
empty array; `getProperties` equals the override-free variant and succeeds
with the (non-empty) default-branch result. -/
theorem getProperties_emptyOverride_witness :
    exD10.getProperties PropertyPlace.show 0 =
      ({ exD10 with options := setContextOverride exD10.options PropertyPlace.show none }
        : ResourceDecorator).getProperties PropertyPlace.show 0
    ∧ exD10.getProperties PropertyPlace.show 0 = Except.ok [exPropA] := by
  obtain ⟨heq, -, -⟩ := getProperties_emptyOverride_spec exD10 PropertyPlace.show 0 rfl
  exact ⟨heq, rfl⟩

/-- C2 counterexample: with no override and two properties visible in `show`
that share position 5, `getProperties({where: show})` returns a sequence whose
positions are `[5, 5]`, which is not strictly ascending — so the claim as
stated (result sorted strictly ascending by position, for every resource)
fails at this input. -/
theorem getProperties_default_counterexample :
    okPositions (exD2.getProperties PropertyPlace.show 0) = [5, 5] ∧
    ¬ List.Pairwise (fun a b : Int => a < b)
        (okPositions (exD2.getProperties PropertyPlace.show 0)) := by
  have h : okPositions (exD2.getProperties PropertyPlace.show 0) = [5, 5] := by
    decide
  rw [h]
  exact ⟨rfl, by decide⟩

/-- C2 (amended): for every resource and context with no explicit (non-empty)
ordering override, `getProperties({where, max})` returns exactly the
properties whose visibility resolves true for that context, sorted ascending
(nondecreasing) by position — strictly ascending whenever the visible
properties' positions are pairwise distinct — and, when `max` is nonzero,
truncated to the first `max` entries. -/
theorem getProperties_default_spec (d : ResourceDecorator)
    (place : PropertyPlace) (max : Nat)
    (hov : overrideFor d.options place = none ∨ overrideFor d.options place = some []) :
    ∃ full, d.getProperties place 0 = Except.ok full ∧
      full.Perm ((d.properties.filter (fun kv => kv.2.visibleIn place)).map
        (fun kv => kv.2)) ∧
      List.Pairwise (fun a b : PropertyDecorator => a.position ≤ b.position) full ∧
      d.getProperties place max =
        Except.ok (if max = 0 then full else full.take max) ∧
      (((d.properties.filter (fun kv => kv.2.visibleIn place)).map
          (fun kv => kv.2.position)).Nodup →
        List.Pairwise (fun a b : PropertyDecorator => a.position < b.position) full) := by
  have hperm : (visibleSorted d place).Perm
      ((d.properties.filter (fun kv => kv.2.visibleIn place)).map (fun kv => kv.2)) :=
    (List.perm_insertionSort _ _).map _
  have hsorted : List.Pairwise (fun a b : PropertyDecorator => a.position ≤ b.position)
      (visibleSorted d place) := by
    haveI ht : IsTotal (String × PropertyDecorator)
        (fun a b => a.2.position ≤ b.2.position) := ⟨fun a b => le_total _ _⟩
    haveI htr : IsTrans (String × PropertyDecorator)
        (fun a b => a.2.position ≤ b.2.position) := ⟨fun _ _ _ h1 h2 => le_trans h1 h2⟩
    exact List.pairwise_map.mpr (List.sorted_insertionSort _ _)
  refine ⟨visibleSorted d place, ?_, hperm, hsorted,
    getProperties_default_eq d place max hov, ?_⟩
  · simpa using getProperties_default_eq d place 0 hov
  · intro hnodup
    have hmapperm : ((visibleSorted d place).map (fun p => p.position)).Perm
        ((d.properties.filter (fun kv => kv.2.visibleIn place)).map
          (fun kv => kv.2.position)) := by
      have h2 := hperm.map (fun p : PropertyDecorator => p.position)
      simpa [List.map_map] using h2
    have hnd : ((visibleSorted d place).map (fun p => p.position)).Nodup :=
      (hmapperm.nodup_iff).mpr hnodup
    have hne : List.Pairwise (fun a b : PropertyDecorator => a.position ≠ b.position)
        (visibleSorted d place) := List.pairwise_map.mp hnd
    exact (hsorted.and hne).imp (fun h => lt_of_le_of_ne h.1 h.2)

/-- C2 witness: a concrete resource with no overrides; only `a` (position 1)
is visible in `show`, so the result is `[a]`, strictly ascending, and `max`
truncation applies. -/
theorem getProperties_default_witness :
    exD2w.getProperties PropertyPlace.show 0 = Except.ok [exPropA] ∧
    exD2w.getProperties PropertyPlace.show 1 = Except.ok [exPropA] ∧
    List.Pairwise (fun a b : PropertyDecorator => a.position < b.position) [exPropA] := by
  obtain ⟨full, h0, -, -, hmax, hstrict⟩ :=
    getProperties_default_spec exD2w PropertyPlace.show 1 (Or.inl rfl)
  have e : exD2w.getProperties PropertyPlace.show 0 = Except.ok [exPropA] := rfl
  rw [e] at h0
  have hfull : full = [exPropA] := (Except.ok.inj h0).symm
  rw [hfull] at hmax hstrict
  refine ⟨e, ?_, hstrict (by decide)⟩
  rw [hmax]
  rfl

/-- C8 counterexample: with a valid 9-name `listProperties` override,
`getListProperties()` returns all 9 entries — the override branch ignores the
`max = 8` column cap, so "never returns more than 8 entries" fails for this
configuration. -/
theorem getListProperties_counterexample :
    okLength exD8.getListProperties = 9 ∧ 8 < okLength exD8.getListProperties := by
  have h : okLength exD8.getListProperties = 9 := by decide
  exact ⟨h, by rw [h]; decide⟩

/-- C8 (amended): `getListProperties()` is exactly
`getProperties({where: list, max: 8})`; when the list-context ordering
override is absent or empty (the default branch), it returns at most 8
entries — a non-empty override, however, is returned whole, ignoring the
cap. -/
theorem getListProperties_spec (d : ResourceDecorator) :
    d.getListProperties = d.getProperties PropertyPlace.list 8 ∧
    ((overrideFor d.options PropertyPlace.list = none ∨
        overrideFor d.options PropertyPlace.list = some []) →
      ∀ ps, d.getListProperties = Except.ok ps → ps.length ≤ 8) := by
  refine ⟨rfl, ?_⟩
  intro hov ps hps
  have e : d.getListProperties =
      Except.ok ((visibleSorted d PropertyPlace.list).take 8) := by
    have h8 := getProperties_default_eq d PropertyPlace.list 8 hov
    simpa [ResourceDecorator.getListProperties, DEFAULT_MAX_COLUMNS_IN_LIST] using h8
  rw [e] at hps
  have hpe : (visibleSorted d PropertyPlace.list).take 8 = ps := Except.ok.inj hps
  rw [← hpe]
  exact List.length_take_le 8 _

/-- C8 witness: the amended statement applied to a concrete resource with no
override (result `[a]`, length 1 ≤ 8). -/
theorem getListProperties_witness :
    exD2w.getListProperties = exD2w.getProperties PropertyPlace.list 8 ∧
    okLength exD2w.getListProperties ≤ 8 := by
  refine ⟨(getListProperties_spec exD2w).1, ?_⟩
  have h := (getListProperties_spec exD2w).2 (Or.inl rfl)
    ((visibleSorted exD2w PropertyPlace.list).take 8) rfl
  have e : exD2w.getListProperties =
      Except.ok ((visibleSorted exD2w PropertyPlace.list).take 8) := rfl
  rw [e]
  exact h

/-- C5: on a resource with at least one property, `titleProperty()` is never
`undefined`: it returns the first property in map order whose `isTitle`
resolves true, and when no property is marked as title it returns the first
property in map order (so a unique marked property is returned regardless of
its place in the map). -/
theorem titleProperty_spec (d : ResourceDecorator) (h : d.properties ≠ []) :
    (d.titleProperty).isSome ∧
    (∀ l₁ p l₂, d.properties.map (fun kv => kv.2) = l₁ ++ p :: l₂ →
      (∀ q ∈ l₁, q.isTitle = false) → p.isTitle = true → d.titleProperty = some p) ∧
    ((∀ q ∈ d.properties.map (fun kv => kv.2), q.isTitle = false) →
      d.titleProperty = (d.properties.map (fun kv => kv.2)).head?) := by
  refine ⟨?_, ?_, ?_⟩
  · cases hfind : (d.properties.map (fun kv => kv.2)).find? (fun q => q.isTitle) with
    | some p => simp [ResourceDecorator.titleProperty, hfind]
    | none =>
      have hne2 : d.properties.map (fun kv => kv.2) ≠ [] := by
        cases hd : d.properties with
        | nil => exact absurd hd h
        | cons kv rest => simp [hd]
      obtain ⟨a, t, hat⟩ := List.exists_cons_of_ne_nil hne2
      simp only [ResourceDecorator.titleProperty, hfind]
      rw [hat]
      rfl
  · intro l₁ p l₂ hsplit h₁ hp
    have hnone : l₁.find? (fun q => q.isTitle) = none :=
      List.find?_eq_none.mpr (fun x hx => by simp [h₁ x hx])
    have hfind : (d.properties.map (fun kv => kv.2)).find? (fun q => q.isTitle) = some p := by
      rw [hsplit, List.find?_append, hnone]
      simp [List.find?_cons, hp]
    simp [ResourceDecorator.titleProperty, hfind]
  · intro hall
    have hfind : (d.properties.map (fun kv => kv.2)).find? (fun q => q.isTitle) = none :=
      List.find?_eq_none.mpr (fun x hx => by simp [hall x hx])
    simp [ResourceDecorator.titleProperty, hfind]

/-- C5 witness: in `exD2w` only the second property `b` is marked as title, so
`titleProperty()` returns `b` despite its non-initial place; with the marked
property quantifiers instantiated at the concrete split `[a] ++ b :: []`. -/
theorem titleProperty_witness : exD2w.titleProperty = some exPropB :=
  (titleProperty_spec exD2w (by simp [exD2w])).2.1 [exPropA] exPropB [] rfl
    (by decide) rfl

/-- C6: looking up a property path that is not a key of the owned map throws a
`ConfigurationError` whose message contains both the missing path and the
resource's resolved name; looking up a present key returns its decorator
without error. -/
theorem getPropertyByKey_spec (d : ResourceDecorator) (path : String) :
    (objGet d.properties path = none →
      ∃ e, d.getPropertyByKey path = Except.error e ∧
        ∃ s₁ s₂, e.message = s₁ ++ path ++ s₂ ++ d.getResourceName) ∧
    (∀ p, objGet d.properties path = some p →
      d.getPropertyByKey path = Except.ok p) := by
  constructor
  · intro h
    have he : d.getPropertyByKey path = Except.error
        ⟨"there is no property by the name of '" ++ path ++ "' in resource "
            ++ d.getResourceName,
          "tutorial-04-customizing-resources.html"⟩ := by
      simp [ResourceDecorator.getPropertyByKey, h]
    exact ⟨_, he, "there is no property by the name of '", "' in resource ", rfl⟩
  · intro p h
    simp [ResourceDecorator.getPropertyByKey, h]

/-- C6 witness: `exD2w` has keys `a` and `b` and resolved name `User`; looking
up `nope` yields the `ConfigurationError` naming both, looking up `a`
succeeds. -/
theorem getPropertyByKey_witness :
    exD2w.getPropertyByKey "nope" = Except.error
      ⟨"there is no property by the name of 'nope' in resource User",
        "tutorial-04-customizing-resources.html"⟩ ∧
    exD2w.getPropertyByKey "a" = Except.ok exPropA := by
  obtain ⟨e, he, -⟩ := (getPropertyByKey_spec exD2w "nope").1 rfl
  refine ⟨?_, (getPropertyByKey_spec exD2w "a").2 exPropA rfl⟩
  have h0 : exD2w.getPropertyByKey "nope" = Except.error
      ⟨"there is no property by the name of '" ++ "nope" ++ "' in resource "
          ++ exD2w.getResourceName,
        "tutorial-04-customizing-resources.html"⟩ := rfl
  rw [h0]
  congr 1

/-- C7: an action is in `resourceActions(currentAdmin)` iff it is one of the
resource's actions, its scope is resource-level, its visibility predicate
holds for the current admin, and its access predicate holds for the current
admin — so an action that is visible but not accessible is excluded. -/
theorem resourceActions_spec (d : ResourceDecorator)
    (currentAdmin : Option CurrentAdmin) (a : ActionDecorator) :
    a ∈ d.resourceActions currentAdmin ↔
      (a ∈ d.actions.map (fun kv => kv.2) ∧ a.isResourceType = true ∧
        a.isVisible currentAdmin = true ∧ a.isAccessible currentAdmin = true) := by
  simp [ResourceDecorator.resourceActions, List.mem_filter, Bool.and_eq_true,
    and_assoc]

theorem bind_eq_ok {ε α β : Type} {x : Except ε α} {f : α → Except ε β} {b : β}
    (h : x >>= f = Except.ok b) : ∃ a, x = Except.ok a ∧ f a = Except.ok b := by
  cases x with
  | ok a => exact ⟨a, rfl, h⟩
  | error e => exact Except.noConfusion h

/-- C9: with no user-specified parent, `getParent` (and hence the `parent`
field of every successful `toJSON()`) has the resource's database name as
`name` and icon `'icon-' + databaseType` when `databaseType` is truthy
(non-empty), `'icon-database'` otherwise. -/
theorem toJSON_parent_spec (d : ResourceDecorator)
    (currentAdmin : Option CurrentAdmin) (hp : d.options.parent = none) :
    d.getParent = ⟨d.resource.databaseName,
      if d.resource.databaseType = "" then "icon-database"
      else "icon-" ++ d.resource.databaseType⟩ ∧
    (∀ j, d.toJSON currentAdmin = Except.ok j → j.parent = d.getParent) := by
  constructor
  · have h1 : d.getParent = ⟨d.resource.databaseName,
        "icon-" ++ (if d.resource.databaseType = "" then "database"
          else d.resource.databaseType)⟩ := by
      simp [ResourceDecorator.getParent, hp]
    rw [h1]
    by_cases hdb : d.resource.databaseType = ""
    · rw [hdb]
      congr 1
    · simp [hdb]
  · intro j hj
    unfold ResourceDecorator.toJSON at hj
    obtain ⟨tp, htp, hj⟩ := bind_eq_ok hj
    obtain ⟨listP, hlist, hj⟩ := bind_eq_ok hj
    obtain ⟨editP, hedit, hj⟩ := bind_eq_ok hj
    obtain ⟨showP, hshow, hj⟩ := bind_eq_ok hj
    obtain ⟨filterP, hfilter, hj⟩ := bind_eq_ok hj
    rw [← Except.ok.inj hj]

/-- C9 witness: `exD2w` has no parent option, database name `mydb` and
database type `mongodb`; its `toJSON` succeeds and carries parent
`{name: mydb, icon: icon-mongodb}`. -/
theorem toJSON_parent_witness :
    exD2w.getParent = ⟨"mydb", "icon-mongodb"⟩ ∧
    okParent (exD2w.toJSON none) = some exD2w.getParent := by
  obtain ⟨h1, h2⟩ := toJSON_parent_spec exD2w none rfl
  constructor
  · rw [h1]
    decide
  · obtain ⟨j, hjok⟩ : ∃ j, exD2w.toJSON none = Except.ok j := ⟨_, rfl⟩
    have hp2 := h2 j hjok
    rw [hjok]
    simp [okParent, hp2]

theorem objGet_nil {α : Type} (k : String) : objGet ([] : List (String × α)) k = none := rfl

theorem objGet_cons {α : Type} (kv : String × α) (m : List (String × α)) (k : String) :
    objGet (kv :: m) k = if kv.1 = k then some kv.2 else objGet m k := by
  by_cases h : kv.1 = k
  · simp [objGet, List.find?_cons_of_pos, h]
  · rw [if_neg h]
    unfold objGet
    rw [List.find?_cons_of_neg]
    simp [h]

theorem objGet_isSome_iff {α : Type} (m : List (String × α)) (k : String) :
    (objGet m k).isSome = true ↔ k ∈ m.map Prod.fst := by
  induction m with
  | nil => simp [objGet]
  | cons kv rest ih =>
    rw [objGet_cons]
    by_cases h : kv.1 = k
    · simp [h]
    · rw [if_neg h, List.map_cons]
      constructor
      · intro hs
        exact List.mem_cons_of_mem _ (ih.mp hs)
      · intro hm
        rcases List.mem_cons.mp hm with h1 | h1
        · exact absurd h1.symm h
        · exact ih.mpr h1

theorem objGet_eq_none_of_not_mem {α : Type} {m : List (String × α)} {k : String}
    (h : ¬ k ∈ m.map Prod.fst) : objGet m k = none := by
  cases ho : objGet m k with
  | none => rfl
  | some v => exact absurd ((objGet_isSome_iff m k).mp (by simp [ho])) h

theorem objGet_append {α : Type} (m₁ m₂ : List (String × α)) (k : String) :
    objGet (m₁ ++ m₂) k =
      match objGet m₁ k with
      | some v => some v
      | none => objGet m₂ k := by
  induction m₁ with
  | nil => simp [objGet_nil]
  | cons kv rest ih =>
    rw [List.cons_append, objGet_cons, objGet_cons]
    by_cases h : kv.1 = k <;> simp [h, ih]

theorem any_key_iff {α : Type} (m : List (String × α)) (k : String) :
    m.any (fun kv => kv.1 = k) = true ↔ k ∈ m.map Prod.fst := by
  simp [List.any_eq_true, List.mem_map]

theorem objInsert_of_not_mem {α : Type} {m : List (String × α)} {k : String} (v : α)
    (h : ¬ k ∈ m.map Prod.fst) : objInsert m k v = m ++ [(k, v)] := by
  have hany : m.any (fun kv => kv.1 = k) = false := by
    cases ha : m.any (fun kv => kv.1 = k) with
    | false => rfl
    | true => exact absurd ((any_key_iff m k).mp ha) h
  simp [objInsert, hany]

theorem objGet_replace_self {α : Type} (m : List (String × α)) (k : String) (v : α)
    (h : k ∈ m.map Prod.fst) :
    objGet (m.map (fun kv => if kv.1 = k then (kv.1, v) else kv)) k = some v := by
  induction m with
  | nil => simp at h
  | cons kv rest ih =>
    rw [List.map_cons]
    by_cases hk : kv.1 = k
    · rw [if_pos hk, objGet_cons]
      simp [hk]
    · rw [if_neg hk, objGet_cons, if_neg hk]
      apply ih
      rcases List.mem_map.mp h with ⟨kv2, hkv2, he⟩
      rcases List.mem_cons.mp hkv2 with h1 | h1
      · exact absurd (h1 ▸ he) hk
      · exact List.mem_map.mpr ⟨kv2, h1, he⟩

theorem objGet_replace_ne {α : Type} (m : List (String × α)) (k k' : String) (v : α)
    (hne : ¬ k' = k) :
    objGet (m.map (fun kv => if kv.1 = k then (kv.1, v) else kv)) k' = objGet m k' := by
  induction m with
  | nil => rfl
  | cons kv rest ih =>
    rw [List.map_cons]
    by_cases hk : kv.1 = k
    · rw [if_pos hk]
      have hne2 : ¬ kv.1 = k' := fun he => hne (he.symm.trans hk)
      simp [objGet_cons, hne2, ih]
    · rw [if_neg hk]
      by_cases h2 : kv.1 = k' <;> simp [objGet_cons, h2, ih]

theorem objGet_objInsert_self {α : Type} (m : List (String × α)) (k : String) (v : α) :
    objGet (objInsert m k v) k = some v := by
  by_cases h : m.any (fun kv => kv.1 = k)
  · rw [objInsert, if_pos h]
    exact objGet_replace_self m k v ((any_key_iff m k).mp h)
  · rw [objInsert, if_neg h]
    rw [objGet_append]
    have hnone : objGet m k = none := by
      apply objGet_eq_none_of_not_mem
      intro hmem
      exact h ((any_key_iff m k).mpr hmem)
    rw [hnone]
    simp [objGet_cons]

theorem objGet_objInsert_ne {α : Type} (m : List (String × α)) (k k' : String) (v : α)
    (hne : ¬ k' = k) : objGet (objInsert m k v) k' = objGet m k' := by
  by_cases h : m.any (fun kv => kv.1 = k)
  · rw [objInsert, if_pos h]
    exact objGet_replace_ne m k k' v hne
  · rw [objInsert, if_neg h, objGet_append]
    cases ho : objGet m k' with
    | some w => rfl
    | none =>
      simp only [objGet_cons, objGet_nil]
      rw [if_neg (by simpa using fun he => hne he.symm)]

theorem mem_keys_objInsert {α : Type} {m : List (String × α)} {k : String}
    (k' : String) (v : α) (h : k ∈ m.map Prod.fst) :
    k ∈ (objInsert m k' v).map Prod.fst := by
  by_cases hc : m.any (fun kv => kv.1 = k')
  · rw [objInsert, if_pos hc]
    have he : (m.map (fun kv => if kv.1 = k' then (kv.1, v) else kv)).map Prod.fst
        = m.map Prod.fst := by
      rw [List.map_map]
      apply List.map_congr_left
      intro kv _
      by_cases hkv : kv.1 = k' <;> simp [hkv]
    rw [he]
    exact h
  · rw [objInsert, if_neg hc]
    simp only [List.map_append, List.mem_append]
    exact Or.inl h

theorem map_fst_filter_key {σ : Type} (l : List (String × σ)) (q : String → Bool) :
    (l.filter (fun kv => q kv.1)).map Prod.fst = (l.map Prod.fst).filter q := by
  induction l with
  | nil => rfl
  | cons kv rest ih =>
    rw [List.filter_cons, List.map_cons, List.filter_cons]
    by_cases h : q kv.1 <;> simp [h, ih]

theorem foldl_decorate_base {σ : Type} (optProps : List (String × σ))
    (decorate : BaseProperty → Option σ → PropertyDecorator) :
    ∀ (l : List BaseProperty) (acc : List (String × PropertyDecorator)),
      (acc.map Prod.fst ++ l.map BaseProperty.name).Nodup →
      l.foldl (fun memo p => objInsert memo p.name (decorate p (objGet optProps p.name))) acc
        = acc ++ l.map (fun p => (p.name, decorate p (objGet optProps p.name))) := by
  intro l
  induction l with
  | nil =>
    intro acc _
    simp
  | cons p rest ih =>
    intro acc h
    have hsplit := List.nodup_append.mp (by simpa using h)
    have hp : ¬ p.name ∈ acc.map Prod.fst := fun hmem =>
      hsplit.2.2 hmem (List.mem_cons_self _ _)
    rw [List.foldl_cons, objInsert_of_not_mem _ hp,
      ih (acc ++ [(p.name, decorate p (objGet optProps p.name))]) (by
        simp only [List.map_append, List.map_cons, List.map_nil]
        simpa [List.append_assoc] using h)]
    simp

theorem listContains_iff (l : List String) (a : String) :
    l.contains a = true ↔ a ∈ l := by
  simp [List.contains, List.elem_iff]

theorem foldl_decorate_synth {σ : Type} (optProps : List (String × σ))
    (decorate : BaseProperty → Option σ → PropertyDecorator)
    (resNames : List String) :
    ∀ (l : List (String × σ)) (cur : List (String × PropertyDecorator)),
      (l.map Prod.fst).Nodup →
      (∀ kv ∈ l, (kv.1 ∈ cur.map Prod.fst ↔ kv.1 ∈ resNames)) →
      l.foldl (fun props kv =>
          if (objGet props kv.1).isSome || kv.1.data.contains '.' then props
          else objInsert props kv.1
            (decorate { path := kv.1, isSortable := false } (objGet optProps kv.1))) cur
        = cur ++ (l.filter (fun kv =>
              !(resNames.contains kv.1) && !(kv.1.data.contains '.'))).map
            (fun kv => (kv.1,
              decorate { path := kv.1, isSortable := false } (objGet optProps kv.1))) := by
  intro l
  induction l with
  | nil =>
    intro cur _ _
    simp
  | cons kv rest ih =>
    intro cur h1 h2
    have h1rest : (rest.map Prod.fst).Nodup := by
      simp only [List.map_cons, List.nodup_cons] at h1
      exact h1.2
    have hk1 : ¬ kv.1 ∈ rest.map Prod.fst := by
      simp only [List.map_cons, List.nodup_cons] at h1
      exact h1.1
    rw [List.foldl_cons]
    by_cases hcond : kv.1 ∈ resNames ∨ kv.1.data.contains '.' = true
    · have hskip : ((objGet cur kv.1).isSome || kv.1.data.contains '.') = true := by
        rcases hcond with hc | hc
        · have hmem := (h2 kv (List.mem_cons_self _ _)).mpr hc
          rw [(objGet_isSome_iff cur kv.1).mpr hmem, Bool.true_or]
        · rw [hc, Bool.or_true]
      rw [if_pos hskip, ih cur h1rest (fun kv2 hkv2 => h2 kv2 (List.mem_cons_of_mem _ hkv2)),
        List.filter_cons]
      have hdrop : (!(resNames.contains kv.1) && !(kv.1.data.contains '.')) = false := by
        rcases hcond with hc | hc
        · rw [(listContains_iff resNames kv.1).mpr hc, Bool.not_true, Bool.false_and]
        · rw [hc, Bool.not_true, Bool.and_false]
      rw [hdrop, if_neg Bool.false_ne_true]
    · push_neg at hcond
      have hnotin : ¬ kv.1 ∈ cur.map Prod.fst := fun hmem =>
        hcond.1 ((h2 kv (List.mem_cons_self _ _)).mp hmem)
      have h4 : kv.1.data.contains '.' = false := by
        cases hcc : kv.1.data.contains '.' with
        | false => rfl
        | true => exact absurd hcc hcond.2
      have h3 : objGet cur kv.1 = none := objGet_eq_none_of_not_mem hnotin
      have hcondf : ((objGet cur kv.1).isSome || kv.1.data.contains '.') = false := by
        rw [h3, h4]
        rfl
      rw [if_neg (by rw [hcondf]; exact Bool.false_ne_true), objInsert_of_not_mem _ hnotin,
        ih (cur ++ [(kv.1, decorate { path := kv.1, isSortable := false }
            (objGet optProps kv.1))]) h1rest (fun kv2 hkv2 => by
          have hne : ¬ kv2.1 = kv.1 := fun he => hk1 (he ▸ List.mem_map.mpr ⟨kv2, hkv2, rfl⟩)
          simp only [List.map_append, List.map_cons, List.map_nil, List.mem_append,
            List.mem_singleton]
          rw [h2 kv2 (List.mem_cons_of_mem _ hkv2)]
          simp [hne]),
        List.filter_cons]
      have hkeep : (!(resNames.contains kv.1) && !(kv.1.data.contains '.')) = true := by
        have h5 : resNames.contains kv.1 = false := by
          cases hcc : resNames.contains kv.1 with
          | false => rfl
          | true => exact absurd ((listContains_iff resNames kv.1).mp hcc) hcond.1
        rw [h5, h4]
        rfl
      rw [hkeep, if_pos rfl, List.map_cons, List.append_assoc, List.singleton_append]

/-- C3: for a resource whose descriptors have distinct names and an
`options.properties` mapping (distinct keys, as JS object keys are),
`decorateProperties` yields the map whose keys are exactly the descriptor
names, in descriptor order, followed by one entry per `options.properties` key
that is not a descriptor name and contains no `.` (in option order); so the
size is N plus the number of such synthetic keys, dotted unknown keys produce
no entry, and every synthesized entry wraps a non-sortable descriptor whose
path is its key.  `decorate` stands for the external `PropertyDecorator`
constructor, assumed only to store the wrapped descriptor. -/
theorem decorateProperties_spec {σ : Type} (resProps : List BaseProperty)
    (optProps : List (String × σ))
    (decorate : BaseProperty → Option σ → PropertyDecorator)
    (hdec : ∀ p o, (decorate p o).property = p)
    (hres : (resProps.map BaseProperty.name).Nodup)
    (hopt : (optProps.map Prod.fst).Nodup) :
    (decorateProperties resProps optProps decorate).map Prod.fst
      = resProps.map BaseProperty.name
        ++ (optProps.map Prod.fst).filter
            (fun k => !((resProps.map BaseProperty.name).contains k)
              && !(k.data.contains '.'))
    ∧ (decorateProperties resProps optProps decorate).length
      = resProps.length
        + ((optProps.map Prod.fst).filter
            (fun k => !((resProps.map BaseProperty.name).contains k)
              && !(k.data.contains '.'))).length
    ∧ (∀ kv ∈ decorateProperties resProps optProps decorate,
        ¬ kv.1 ∈ resProps.map BaseProperty.name →
        kv.2.property.isSortable = false ∧ kv.2.property.path = kv.1) := by
  have hbase : resProps.foldl
      (fun memo p => objInsert memo p.name (decorate p (objGet optProps p.name))) []
      = resProps.map (fun p => (p.name, decorate p (objGet optProps p.name))) := by
    have := foldl_decorate_base optProps decorate resProps [] (by simpa using hres)
    simpa using this
  have hbasekeys : (resProps.map
        (fun p => (p.name, decorate p (objGet optProps p.name)))).map Prod.fst
      = resProps.map BaseProperty.name := by
    rw [List.map_map]
    rfl
  have hmain : decorateProperties resProps optProps decorate
      = resProps.map (fun p => (p.name, decorate p (objGet optProps p.name)))
        ++ (optProps.filter (fun kv =>
              !((resProps.map BaseProperty.name).contains kv.1)
                && !(kv.1.data.contains '.'))).map
            (fun kv => (kv.1,
              decorate { path := kv.1, isSortable := false } (objGet optProps kv.1))) := by
    rw [decorateProperties, hbase]
    exact foldl_decorate_synth optProps decorate (resProps.map BaseProperty.name)
      optProps _ hopt (fun kv _ => by rw [hbasekeys])
  have hkeys : (decorateProperties resProps optProps decorate).map Prod.fst
      = resProps.map BaseProperty.name
        ++ (optProps.map Prod.fst).filter
            (fun k => !((resProps.map BaseProperty.name).contains k)
              && !(k.data.contains '.')) := by
    rw [hmain, List.map_append, hbasekeys]
    congr 1
    rw [List.map_map]
    exact map_fst_filter_key optProps
      (fun k => !((resProps.map BaseProperty.name).contains k) && !(k.data.contains '.'))
  refine ⟨hkeys, ?_, ?_⟩
  · have h1 : (decorateProperties resProps optProps decorate).length
        = ((decorateProperties resProps optProps decorate).map Prod.fst).length := by
      rw [List.length_map]
    rw [h1, hkeys]
    simp
  · intro kv hkv hnot
    rw [hmain] at hkv
    rcases List.mem_append.mp hkv with hmem | hmem
    · rcases List.mem_map.mp hmem with ⟨p, hp, he⟩
      have hk : kv.1 = p.name := by rw [← he]
      exact absurd (by rw [hk]; exact List.mem_map.mpr ⟨p, hp, rfl⟩) hnot
    · rcases List.mem_map.mp hmem with ⟨kv2, hkv2, he⟩
      rw [← he]
      simp [hdec]

/-- C3 witness: two real descriptors plus options mentioning a fresh
non-dotted key `extra` and a fresh dotted key `nested.x`: the result has keys
`[name, age, extra]` (the dotted key is dropped), and only the synthesized
entry is non-sortable. -/
theorem decorateProperties_witness :
    (decorateProperties exResProps exOptProps exDecorate).map Prod.fst
      = ["name", "age", "extra"] ∧
    (decorateProperties exResProps exOptProps exDecorate).length = 3 ∧
    (decorateProperties exResProps exOptProps exDecorate).map
        (fun kv => kv.2.property.isSortable) = [true, true, false] := by
  obtain ⟨h1, h2, -⟩ := decorateProperties_spec exResProps exOptProps exDecorate
    (fun p o => rfl) (by decide) (by decide)
  refine ⟨?_, ?_, by decide⟩
  · rw [h1]
    decide
  · rw [h2]
    decide

theorem objGet_map_fill {α β : Type} (f : String → α → β) (m : List (String × α))
    (k : String) :
    objGet (m.map (fun kv => (kv.1, f kv.1 kv.2))) k = (objGet m k).map (f k) := by
  induction m with
  | nil => rfl
  | cons kv rest ih =>
    rw [List.map_cons]
    by_cases h : kv.1 = k <;> simp [objGet_cons, h, ih]

theorem foldl_merge_objGet (k : String) :
    ∀ (user cur : List (String × ActionSpec)),
      (user.map Prod.fst).Nodup →
      objGet (user.foldl (fun memo kv =>
          match objGet memo kv.1 with
          | some d => objInsert memo kv.1 (mergeActionSpec d kv.2)
          | none => memo ++ [(kv.1, kv.2)]) cur) k =
        match objGet user k with
        | some u =>
          match objGet cur k with
          | some d => some (mergeActionSpec d u)
          | none => some u
        | none => objGet cur k := by
  intro user
  induction user with
  | nil =>
    intro cur _
    rfl
  | cons kv rest ih =>
    intro cur h
    have h1 : (rest.map Prod.fst).Nodup := by
      simp only [List.map_cons, List.nodup_cons] at h
      exact h.2
    have hk1 : ¬ kv.1 ∈ rest.map Prod.fst := by
      simp only [List.map_cons, List.nodup_cons] at h
      exact h.1
    rw [List.foldl_cons, ih _ h1]
    by_cases hkk : kv.1 = k
    · subst hkk
      have hrest : objGet rest kv.1 = none := objGet_eq_none_of_not_mem hk1
      rw [hrest, objGet_cons, if_pos rfl]
      cases hc : objGet cur kv.1 with
      | some d =>
        simp only [hc]
        exact objGet_objInsert_self cur kv.1 (mergeActionSpec d kv.2)
      | none =>
        simp only [hc]
        rw [objGet_append, hc]
        simp [objGet_cons]
    · rw [objGet_cons, if_neg hkk]
      have hcur : objGet (match objGet cur kv.1 with
          | some d => objInsert cur kv.1 (mergeActionSpec d kv.2)
          | none => cur ++ [(kv.1, kv.2)]) k = objGet cur k := by
        cases hc : objGet cur kv.1 with
        | some d =>
          simp only [hc]
          exact objGet_objInsert_ne cur kv.1 k (mergeActionSpec d kv.2)
            (fun he => hkk he.symm)
        | none =>
          simp only [hc]
          rw [objGet_append]
          cases ho : objGet cur k with
          | some w => rfl
          | none =>
            rw [objGet_cons, if_neg hkk, objGet_nil]
      simp only [hcur]

theorem foldl_merge_keys (k : String) :
    ∀ (user cur : List (String × ActionSpec)),
      k ∈ cur.map Prod.fst →
      k ∈ (user.foldl (fun memo kv =>
          match objGet memo kv.1 with
          | some d => objInsert memo kv.1 (mergeActionSpec d kv.2)
          | none => memo ++ [(kv.1, kv.2)]) cur).map Prod.fst := by
  intro user
  induction user with
  | nil =>
    intro cur h
    exact h
  | cons kv rest ih =>
    intro cur h
    rw [List.foldl_cons]
    apply ih
    cases hc : objGet cur kv.1 with
    | some d =>
      simp only [hc]
      exact mem_keys_objInsert kv.1 (mergeActionSpec d kv.2) h
    | none =>
      simp only [hc]
      rw [List.map_append]
      exact List.mem_append_left _ h

/-- C4: the action map built by `decorateActions` always contains at least
every built-in default action name; the `_.merge` with `options.actions` is
per-field, so a user entry that only sets `label` (to a truthy string) leaves
the default's scope and visibility/access predicates unchanged while
changing only the label (and the name is still filled from the default or the
key); and every merged action has its `name`/`label` filled with the map key
when the field is absent (`fillNameLabel`). -/
theorem decorateActions_spec (defaults userActions : List (String × ActionSpec))
    (hu : (userActions.map Prod.fst).Nodup) :
    (∀ k, k ∈ defaults.map Prod.fst →
      k ∈ (decorateActions defaults userActions).map Prod.fst) ∧
    (∀ k d0 u l, objGet defaults k = some d0 → objGet userActions k = some u →
      u.label = some l → ¬ l = "" →
      u.name = none → u.actionType = none → u.isVisible = none →
      u.isAccessible = none →
      objGet (decorateActions defaults userActions) k = some
        { name := some (jsOrStr d0.name k)
          label := some l
          actionType := d0.actionType
          isVisible := d0.isVisible
          isAccessible := d0.isAccessible }) ∧
    (∀ k a, objGet (mergeActionMaps defaults userActions) k = some a →
      objGet (decorateActions defaults userActions) k = some (fillNameLabel k a)) := by
  have hfill : ∀ k, objGet (decorateActions defaults userActions) k
      = (objGet (mergeActionMaps defaults userActions) k).map (fillNameLabel k) := by
    intro k
    simp only [decorateActions]
    exact objGet_map_fill fillNameLabel (mergeActionMaps defaults userActions) k
  have hmerge : ∀ k, objGet (mergeActionMaps defaults userActions) k =
      match objGet userActions k with
      | some u =>
        match objGet defaults k with
        | some d => some (mergeActionSpec d u)
        | none => some u
      | none => objGet defaults k := by
    intro k
    exact foldl_merge_objGet k userActions defaults hu
  refine ⟨?_, ?_, ?_⟩
  · intro k hk
    have hkeys : (decorateActions defaults userActions).map Prod.fst
        = (mergeActionMaps defaults userActions).map Prod.fst := by
      simp only [decorateActions]
      rw [List.map_map]
      rfl
    rw [hkeys]
    exact foldl_merge_keys k userActions defaults hk
  · intro k d0 u l hd husr hlab hlne hn hat hv hacc
    have hm : objGet (mergeActionMaps defaults userActions) k
        = some (mergeActionSpec d0 u) := by
      rw [hmerge k, husr, hd]
    rw [hfill k, hm]
    have hms : mergeActionSpec d0 u =
        { name := d0.name, label := some l, actionType := d0.actionType,
          isVisible := d0.isVisible, isAccessible := d0.isAccessible } := by
      rw [mergeActionSpec]
      rw [hlab, hn, hat, hv, hacc]
    show some (fillNameLabel k (mergeActionSpec d0 u)) = some
      { name := some (jsOrStr d0.name k), label := some l, actionType := d0.actionType,
        isVisible := d0.isVisible, isAccessible := d0.isAccessible }
    rw [hms]
    simp only [fillNameLabel, jsOrStr]
    rw [if_neg hlne]
  · intro k a ha
    rw [hfill k, ha]
    rfl

/-- C4 witness: two built-in actions (`delete`, `list`), a user override that
only sets `delete.label = "Remove"`, and a fully custom `custom` action: both
built-in names survive, the merged `delete` keeps its default scope and
predicates with only the label changed, and the custom entry gets its
name/label filled from the key. -/
theorem decorateActions_witness :
    "delete" ∈ (decorateActions exDefaults exUser).map Prod.fst ∧
    "list" ∈ (decorateActions exDefaults exUser).map Prod.fst ∧
    objGet (decorateActions exDefaults exUser) "delete" = some
      { name := some "delete", label := some "Remove", actionType := some "record",
        isVisible := some exDelVis, isAccessible := some exDelAcc } ∧
    objGet (decorateActions exDefaults exUser) "custom" =
      some (fillNameLabel "custom" exUCustom) := by
  obtain ⟨c1, c2, c3⟩ := decorateActions_spec exDefaults exUser (by decide)
  refine ⟨c1 "delete" (by decide), c1 "list" (by decide), ?_, c3 "custom" exUCustom rfl⟩
  exact c2 "delete" exDelDef exUDel "Remove" rfl rfl rfl (by decide) rfl rfl rfl rfl

